import Mathlib

/-!
Verification of the RESP frame decoder (src/frame.rs) of the diy-redis
repository.  The decoder is embedded shallowly: bytes are natural numbers,
the byte buffer is a list, the std::io::Cursor is a structure holding the
buffer and the read position, and every fallible Rust function becomes an
Except-valued Lean function.  The external crates used by the source
(memchr::memchr, btoi::btoi, and String::from_utf8 validation) are embedded
by their documented algorithms, so that every definition is executable.
-/

set_option maxHeartbeats 1000000

namespace DiyRedis

/-- Byte cursor over an immutable byte buffer, modelling std::io::Cursor
over a byte slice: the buffer contents plus a mutable read position. -/
structure Cursor where
  buff : List Nat
  pos : Nat
  deriving Repr

/-- The decoder's error taxonomy, from enum Error in src/frame.rs.  The
anyhow-wrapped UnexpectedError variant carries only a message here and is
named ProtocolError, the spec's name for it. -/
inductive Error where
  | Incomplete : Error
  | UnsupportedFrameType : Error
  | ProtocolError : String → Error

/-- Decoded frame values, from enum Frame in src/frame.rs.  Simple and Error
hold the bytes of the Rust String (a String's bytes are exactly the line
bytes that were validated as UTF-8); Bulk holds raw bytes. -/
inductive Frame where
  | Simple : List Nat → Frame
  | Error : List Nat → Frame
  | Integer : Int → Frame
  | Bulk : List Nat → Frame
  | Null : Frame
  | Array : List Frame → Frame

/-- Index of the first occurrence of byte x, modelling memchr::memchr over
a byte slice. -/
def memchr (x : Nat) : List Nat → Option Nat
  | [] => none
  | b :: rest => if b = x then some 0 else (memchr x rest).map (fun n => n + 1)

/-- Value of an ASCII decimal digit byte, modelling char::to_digit base 10
as used inside the btoi crate. -/
def digitVal (b : Nat) : Option Nat :=
  if 48 ≤ b ∧ b ≤ 57 then some (b - 48) else none

/-- The positive accumulation loop of btoi::btoi: each step multiplies by 10
and adds the digit, with checked_mul / checked_add against the bounds
lo, hi of the target signed integer type (an out-of-range intermediate
aborts with an overflow error, never wraps). -/
def goPos (lo hi : Int) (acc : Int) : List Nat → Option Int
  | [] => some acc
  | d :: ds =>
    match digitVal d with
    | none => none
    | some x =>
      if acc * 10 < lo ∨ hi < acc * 10 then none
      else if acc * 10 + x < lo ∨ hi < acc * 10 + x then none
      else goPos lo hi (acc * 10 + x) ds

/-- The negative accumulation loop of btoi::btoi: checked_mul / checked_sub. -/
def goNeg (lo hi : Int) (acc : Int) : List Nat → Option Int
  | [] => some acc
  | d :: ds =>
    match digitVal d with
    | none => none
    | some x =>
      if acc * 10 < lo ∨ hi < acc * 10 then none
      else if acc * 10 - x < lo ∨ hi < acc * 10 - x then none
      else goNeg lo hi (acc * 10 - x) ds

/-- btoi::btoi for a signed integer type with range [lo, hi]: an optional
single leading '+' (43) or '-' (45) sign, then one or more ASCII digits,
accumulated with checked arithmetic; empty digit sequences, non-digit
bytes and overflow all fail. -/
def btoi (lo hi : Int) : List Nat → Option Int
  | [] => none
  | b :: rest =>
    if b = 43 then
      match rest with
      | [] => none
      | _ :: _ => goPos lo hi 0 rest
    else if b = 45 then
      match rest with
      | [] => none
      | _ :: _ => goNeg lo hi 0 rest
    else goPos lo hi 0 (b :: rest)

/-- Smallest i64 value. -/
def i64Min : Int := -9223372036854775808

/-- Largest i64 value. -/
def i64Max : Int := 9223372036854775807

/-- Smallest i32 value. -/
def i32Min : Int := -2147483648

/-- Largest i32 value. -/
def i32Max : Int := 2147483647

/-- UTF-8 continuation byte, 0x80 to 0xBF. -/
def isCont (b : Nat) : Bool := 128 ≤ b && b ≤ 191

/-- UTF-8 validity of a byte sequence, exactly the check performed by Rust's
String::from_utf8 (the well-formed byte sequences of Unicode Table 3-7:
no overlong encodings, no surrogates, nothing above U+10FFFF). -/
def validUtf8 : List Nat → Bool
  | [] => true
  | b :: rest =>
    if b ≤ 127 then validUtf8 rest
    else if 194 ≤ b && b ≤ 223 then
      match rest with
      | c1 :: r => isCont c1 && validUtf8 r
      | [] => false
    else if b = 224 then
      match rest with
      | c1 :: c2 :: r => (160 ≤ c1 && c1 ≤ 191) && isCont c2 && validUtf8 r
      | _ => false
    else if 225 ≤ b && b ≤ 236 then
      match rest with
      | c1 :: c2 :: r => isCont c1 && isCont c2 && validUtf8 r
      | _ => false
    else if b = 237 then
      match rest with
      | c1 :: c2 :: r => (128 ≤ c1 && c1 ≤ 159) && isCont c2 && validUtf8 r
      | _ => false
    else if 238 ≤ b && b ≤ 239 then
      match rest with
      | c1 :: c2 :: r => isCont c1 && isCont c2 && validUtf8 r
      | _ => false
    else if b = 240 then
      match rest with
      | c1 :: c2 :: c3 :: r => (144 ≤ c1 && c1 ≤ 191) && isCont c2 && isCont c3 && validUtf8 r
      | _ => false
    else if 241 ≤ b && b ≤ 243 then
      match rest with
      | c1 :: c2 :: c3 :: r => isCont c1 && isCont c2 && isCont c3 && validUtf8 r
      | _ => false
    else if b = 244 then
      match rest with
      | c1 :: c2 :: c3 :: r => (128 ≤ c1 && c1 ≤ 143) && isCont c2 && isCont c3 && validUtf8 r
      | _ => false
    else false

/-- Message of the anyhow error raised when the bounded line scan finds no
carriage return (source writes it with the two escaped control characters). -/
def msgCrlfNotFound : String := "protocol error; crlf not found"

/-- Message for a line feed occurring before the terminating carriage return. -/
def msgLfWrongPos : String := "protocol error; lf found in wrong position"

/-- Message for a byte other than line feed directly after the carriage return. -/
def msgLfNotAfterCr : String := "protocol error; lf not found after cr"

/-- Message for simple string bytes that are not valid UTF-8. -/
def msgInvalidSimple : String := "protocol error; invalid simple string format"

/-- Message for error-frame bytes that are not valid UTF-8. -/
def msgInvalidError : String := "protocol error; invalid simple error format"

/-- Message for an integer line rejected by btoi. -/
def msgInvalidInteger : String := "protocol error; invalid integer format"

/-- Message for a bulk length header rejected by btoi. -/
def msgInvalidBulkDigit : String := "protocol error; invalid bulk string length digit"

/-- Message for a bulk length below -1. -/
def msgInvalidBulkLen : String := "protocol error; invalid bulk string length"

/-- Message for the defensive bulk length re-check. -/
def msgLenMismatch : String := "protocol error; bulk string length mismatch"

/-- Message for a bulk payload not followed by carriage return, line feed. -/
def msgMissingFinalCrlf : String := "protocol error; missing final CRLF for bulk string"

/-- fn get_u8: Incomplete when no byte remains, otherwise the byte at the
current position, advancing the position by one. -/
def get_u8 (c : Cursor) : Except Error (Nat × Cursor) :=
  if c.pos < c.buff.length then .ok (c.buff.getD c.pos 0, ⟨c.buff, c.pos + 1⟩)
  else .error .Incomplete

/-- fn read_line_with_limit: scan for the first carriage return (13) from the
current position, searching no further than the optional absolute offset
limit (capped at the buffer length); on a hit at relative index crPos the
slice searched for a stray line feed (10) is buffer[start..start+crPos+1),
the byte at start+crPos+1 must exist and be a line feed, the position moves
past the CRLF and the returned line is buffer[start..start+crPos). -/
def read_line_with_limit (c : Cursor) (limit : Option Nat) :
    Except Error (List Nat × Cursor) :=
  match memchr 13 ((c.buff.drop c.pos).take
      (min (limit.getD c.buff.length) c.buff.length - c.pos)) with
  | none =>
    match limit with
    | some l =>
      if c.buff.length < l then .error (.ProtocolError msgCrlfNotFound)
      else .error .Incomplete
    | none => .error .Incomplete
  | some crPos =>
    if (memchr 10 ((c.buff.drop c.pos).take (crPos + 1))).isSome then
      .error (.ProtocolError msgLfWrongPos)
    else if c.buff.length ≤ c.pos + crPos + 1 then
      .error .Incomplete
    else if c.buff.getD (c.pos + crPos + 1) 0 ≠ 10 then
      .error (.ProtocolError msgLfNotAfterCr)
    else
      .ok ((c.buff.drop c.pos).take crPos, ⟨c.buff, c.pos + crPos + 2⟩)

/-- fn read_line: an unbounded line scan. -/
def read_line (c : Cursor) : Except Error (List Nat × Cursor) :=
  read_line_with_limit c none

/-- fn read_binary_line: require content_len + 2 remaining bytes, take
content_len raw bytes verbatim, then demand the next two bytes are
carriage return, line feed. -/
def read_binary_line (c : Cursor) (content_len : Nat) :
    Except Error (List Nat × Cursor) :=
  if c.buff.length - c.pos < content_len + 2 then
    .error .Incomplete
  else
    if c.buff.getD (c.pos + content_len) 0 ≠ 13 ∨
        c.buff.getD (c.pos + content_len + 1) 0 ≠ 10 then
      .error (.ProtocolError msgMissingFinalCrlf)
    else
      .ok ((c.buff.drop c.pos).take content_len, ⟨c.buff, c.pos + content_len + 2⟩)

/-- Frame::simple: UTF-8 validation via String::from_utf8. -/
def Frame.simple (line : List Nat) : Except DiyRedis.Error Frame :=
  if validUtf8 line then .ok (.Simple line)
  else .error (.ProtocolError msgInvalidSimple)

/-- Frame::error: UTF-8 validation via String::from_utf8. -/
def Frame.error (line : List Nat) : Except DiyRedis.Error Frame :=
  if validUtf8 line then .ok (.Error line)
  else .error (.ProtocolError msgInvalidError)

/-- Frame::integer: the line parsed by btoi at i64 bounds. -/
def Frame.integer (line : List Nat) : Except DiyRedis.Error Frame :=
  match btoi i64Min i64Max line with
  | some v => .ok (.Integer v)
  | none => .error (.ProtocolError msgInvalidInteger)

/-- Frame::bulk: read the length header with the scan bounded at
position + 9 + 2, parse it by btoi at i32 bounds, then dispatch on the
length: -1 gives Null, anything below -1 is an error, otherwise read the
payload and re-check its length defensively. -/
def Frame.bulk (c : Cursor) : Except DiyRedis.Error (Frame × Cursor) :=
  match read_line_with_limit c (some (c.pos + 9 + 2)) with
  | .error e => .error e
  | .ok (lenLine, c1) =>
    match btoi i32Min i32Max lenLine with
    | none => .error (.ProtocolError msgInvalidBulkDigit)
    | some len =>
      if len = -1 then .ok (.Null, c1)
      else if len < -1 then .error (.ProtocolError msgInvalidBulkLen)
      else
        match read_binary_line c1 len.toNat with
        | .error e => .error e
        | .ok (data, c2) =>
          if data.length ≠ len.toNat then .error (.ProtocolError msgLenMismatch)
          else .ok (.Bulk data, c2)

/-- Outcome of one call to fn parse: a decoded frame together with the
advanced cursor, a typed error, or crash — the source's todo macro on the
array sigil, which aborts the process instead of returning. -/
inductive ParseOutcome where
  | ok : Frame → Cursor → ParseOutcome
  | err : Error → ParseOutcome
  | crash : ParseOutcome

/-- fn parse, the decode entry point: read the sigil byte and dispatch.
43 '+', 45 '-', 58 ':', 36 dollar, 42 star. -/
def parse (c : Cursor) : ParseOutcome :=
  match get_u8 c with
  | .error e => .err e
  | .ok (b, c1) =>
    if b = 43 then
      match read_line c1 with
      | .error e => .err e
      | .ok (line, c2) =>
        match Frame.simple line with
        | .error e => .err e
        | .ok f => .ok f c2
    else if b = 45 then
      match read_line c1 with
      | .error e => .err e
      | .ok (line, c2) =>
        match Frame.error line with
        | .error e => .err e
        | .ok f => .ok f c2
    else if b = 58 then
      match read_line c1 with
      | .error e => .err e
      | .ok (line, c2) =>
        match Frame.integer line with
        | .error e => .err e
        | .ok f => .ok f c2
    else if b = 36 then
      match Frame.bulk c1 with
      | .error e => .err e
      | .ok (f, c2) => .ok f c2
    else if b = 42 then .crash
    else .err .UnsupportedFrameType

/-- All bytes are ASCII digits (and used below only with nonempty lists). -/
def allDigits : List Nat → Bool
  | [] => true
  | d :: ds => (digitVal d).isSome && allDigits ds

/-- Decimal value of a digit string, accumulated over a Nat (no bound). -/
def decValue (acc : Nat) : List Nat → Nat
  | [] => acc
  | d :: ds => decValue (acc * 10 + (d - 48)) ds

/-- Integer-valued unchecked positive accumulation, for relating goPos to
the exact decimal value. -/
def valI (acc : Int) : List Nat → Int
  | [] => acc
  | d :: ds => valI (acc * 10 + ((d - 48 : Nat) : Int)) ds

/-- Integer-valued unchecked negative accumulation, for relating goNeg to
the exact decimal value. -/
def valNegI (acc : Int) : List Nat → Int
  | [] => acc
  | d :: ds => valNegI (acc * 10 - ((d - 48 : Nat) : Int)) ds

/-- Reference specification of decimal integer parsing, written from the
spec's words: an optional single leading '+' or '-', otherwise only ASCII
digits (at least one, leading zeros permitted), producing the exact signed
decimal value when it lies in [lo, hi] and nothing otherwise (no wrapping,
no truncation).  Proved equal to the source-side checked btoi below. -/
def btoiSpec (lo hi : Int) (bytes : List Nat) : Option Int :=
  match bytes with
  | [] => none
  | b :: rest =>
    let ds := if b = 43 ∨ b = 45 then rest else b :: rest
    let sign : Int := if b = 45 then -1 else 1
    if ds.isEmpty then none
    else if allDigits ds then
      let v : Int := sign * (decValue 0 ds : Nat)
      if lo ≤ v ∧ v ≤ hi then some v else none
    else none

/-- Grammar-level encodings of frames (RESP2 subset of the spec): the byte
sequences that denote a given frame value.  Bulk encodings are written with
the header line first, then the payload and its terminating CRLF; headers
are at most 10 bytes, which is what the bounded header scan can accept. -/
inductive Encodes : Frame → List Nat → Prop
  | simple (s : List Nat) (hcr : memchr 13 s = none) (hlf : memchr 10 s = none)
      (hu : validUtf8 s = true) : Encodes (.Simple s) (43 :: (s ++ [13, 10]))
  | err (s : List Nat) (hcr : memchr 13 s = none) (hlf : memchr 10 s = none)
      (hu : validUtf8 s = true) : Encodes (.Error s) (45 :: (s ++ [13, 10]))
  | integer (line : List Nat) (v : Int) (hcr : memchr 13 line = none)
      (hlf : memchr 10 line = none) (hv : btoi i64Min i64Max line = some v) :
      Encodes (.Integer v) (58 :: (line ++ [13, 10]))
  | bulk (header data : List Nat) (hcr : memchr 13 header = none)
      (hlf : memchr 10 header = none) (hlen : header.length ≤ 10)
      (hv : btoi i32Min i32Max header = some (data.length : Int)) :
      Encodes (.Bulk data) (36 :: ((header ++ [13, 10]) ++ (data ++ [13, 10])))
  | null (header : List Nat) (hcr : memchr 13 header = none)
      (hlf : memchr 10 header = none) (hlen : header.length ≤ 10)
      (hv : btoi i32Min i32Max header = some (-1)) :
      Encodes .Null (36 :: (header ++ [13, 10]))

end DiyRedis

namespace DiyRedis

theorem getD_drop (l : List Nat) (s i : Nat) : (l.drop s).getD i 0 = l.getD (s + i) 0 := by
  induction l generalizing s with
  | nil => simp
  | cons a t ih =>
    cases s with
    | zero => simp
    | succ s =>
      rw [List.drop_succ_cons, ih s, show s + 1 + i = s + i + 1 by omega,
        List.getD_cons_succ]

theorem getD_take (l : List Nat) (t i : Nat) (h : i < t) : (l.take t).getD i 0 = l.getD i 0 := by
  induction l generalizing t i with
  | nil => simp
  | cons a tl ih =>
    cases t with
    | zero => omega
    | succ t =>
      cases i with
      | zero => simp
      | succ i => simpa using ih t i (by omega)

theorem take_succ_getD (l : List Nat) (i : Nat) (h : i < l.length) :
    l.take (i + 1) = l.take i ++ [l.getD i 0] := by
  induction l generalizing i with
  | nil => simp at h
  | cons a t ih =>
    cases i with
    | zero => simp
    | succ i => simpa using ih i (by simpa using h)

theorem drop_eq_getD_cons (l : List Nat) (s : Nat) (h : s < l.length) :
    l.drop s = l.getD s 0 :: l.drop (s + 1) := by
  induction l generalizing s with
  | nil => simp at h
  | cons a t ih =>
    cases s with
    | zero => simp
    | succ s => simpa using ih s (by simpa using h)

theorem take_append_len (l1 l2 : List Nat) (j : Nat) :
    (l1 ++ l2).take (l1.length + j) = l1 ++ l2.take j := by
  induction l1 with
  | nil => simp
  | cons a t ih => simpa [Nat.succ_add] using ih

theorem getD_append_len (l1 l2 : List Nat) (j : Nat) :
    (l1 ++ l2).getD (l1.length + j) 0 = l2.getD j 0 := by
  induction l1 with
  | nil => simp
  | cons a t ih => simpa [Nat.succ_add] using ih

theorem memchr_none_iff (x : Nat) (l : List Nat) : memchr x l = none ↔ x ∉ l := by
  induction l with
  | nil => simp [memchr]
  | cons b t ih =>
    by_cases hb : b = x
    · subst hb; simp [memchr]
    · simp [memchr, hb, ih, Ne.symm hb]

theorem memchr_some (x : Nat) (l : List Nat) (i : Nat) (h : memchr x l = some i) :
    i < l.length ∧ l.getD i 0 = x ∧ memchr x (l.take i) = none := by
  induction l generalizing i with
  | nil => simp [memchr] at h
  | cons b t ih =>
    by_cases hb : b = x
    · subst hb
      simp [memchr] at h
      subst h
      simp [memchr]
    · simp [memchr, hb] at h
      obtain ⟨j, hj, hji⟩ := h
      obtain ⟨h1, h2, h3⟩ := ih j hj
      subst hji
      refine ⟨by simpa using Nat.succ_lt_succ h1, by simpa using h2, ?_⟩
      simpa [memchr, hb] using h3

theorem memchr_append_hit (x : Nat) (l1 l2 : List Nat) (h : memchr x l1 = none) :
    memchr x (l1 ++ x :: l2) = some l1.length := by
  induction l1 with
  | nil => simp [memchr]
  | cons b t ih =>
    by_cases hb : b = x
    · simp [memchr, hb] at h
    · simp [memchr, hb] at h ⊢
      simpa using ih h

theorem memchr_append_none (x : Nat) (l1 l2 : List Nat) (h1 : memchr x l1 = none)
    (h2 : memchr x l2 = none) : memchr x (l1 ++ l2) = none := by
  rw [memchr_none_iff] at h1 h2 ⊢
  simp [List.mem_append]
  exact ⟨h1, h2⟩

theorem memchr_take_none (x : Nat) (l : List Nat) (k : Nat) (h : memchr x l = none) :
    memchr x (l.take k) = none := by
  rw [memchr_none_iff] at h ⊢
  intro hx
  exact h (List.take_subset k l hx)

end DiyRedis

namespace DiyRedis

theorem get_u8_ok_inv (c : Cursor) (b : Nat) (c1 : Cursor)
    (h : get_u8 c = .ok (b, c1)) :
    c.pos < c.buff.length ∧ b = c.buff.getD c.pos 0 ∧ c1 = ⟨c.buff, c.pos + 1⟩ := by
  unfold get_u8 at h
  split at h
  · simp only [Except.ok.injEq, Prod.mk.injEq] at h
    exact ⟨by assumption, h.1.symm, h.2.symm⟩
  · simp at h

theorem read_line_ok_inv (c : Cursor) (lim : Option Nat) (line : List Nat) (c' : Cursor)
    (h : read_line_with_limit c lim = .ok (line, c')) :
    c'.buff = c.buff ∧
    line = (c.buff.drop c.pos).take line.length ∧
    c'.pos = c.pos + line.length + 2 ∧
    memchr 13 line = none ∧ memchr 10 line = none ∧
    c.buff.getD (c.pos + line.length) 0 = 13 ∧
    c.buff.getD (c.pos + line.length + 1) 0 = 10 ∧
    c.pos + line.length + 1 < c.buff.length ∧
    (∀ l, lim = some l → c.pos + line.length < l) := by
  unfold read_line_with_limit at h
  split at h
  · split at h
    · split at h <;> simp at h
    · simp at h
  · rename_i crPos hm
    split at h
    · simp at h
    · split at h
      · simp at h
      · rename_i h1 h2
        split at h
        · simp at h
        · rename_i h3
          simp only [Except.ok.injEq, Prod.mk.injEq] at h
          obtain ⟨hline, hc'⟩ := h
          obtain ⟨hlt, hget, hpref⟩ := memchr_some 13 _ crPos hm
          have hreglen : crPos < min (min (lim.getD c.buff.length) c.buff.length - c.pos)
              (c.buff.length - c.pos) := by
            simpa using hlt
          have hlinelen : line.length = crPos := by
            rw [← hline]
            simp
            omega
          have hgd : c.buff.getD (c.pos + crPos + 1) 0 = 10 := not_not.mp h3
          refine ⟨hc'.symm ▸ rfl, ?_, ?_, ?_, ?_, ?_, ?_, ?_, ?_⟩
          · rw [hlinelen, ← hline]
          · rw [← hc', hlinelen]
          · rw [← hline]
            have hkey : ((c.buff.drop c.pos).take
                (min (lim.getD c.buff.length) c.buff.length - c.pos)).take crPos =
                (c.buff.drop c.pos).take crPos := by
              rw [List.take_take]
              congr 1
              omega
            rw [← hkey]
            exact hpref
          · rw [← hline]
            have hnone : memchr 10 ((c.buff.drop c.pos).take (crPos + 1)) = none := by
              cases hmem : memchr 10 ((c.buff.drop c.pos).take (crPos + 1)) with
              | none => rfl
              | some k => rw [hmem] at h1; simp at h1
            have hkey : ((c.buff.drop c.pos).take (crPos + 1)).take crPos =
                (c.buff.drop c.pos).take crPos := by
              rw [List.take_take]
              congr 1
              omega
            rw [← hkey]
            exact memchr_take_none 10 _ crPos hnone
          · rw [hlinelen]
            have hkey : ((c.buff.drop c.pos).take
                (min (lim.getD c.buff.length) c.buff.length - c.pos)).getD crPos 0 =
                (c.buff.drop c.pos).getD crPos 0 := getD_take _ _ _ (by omega)
            rw [hkey, getD_drop] at hget
            exact hget
          · rw [hlinelen]
            exact hgd
          · rw [hlinelen]
            omega
          · intro l hl
            subst hl
            simp only [Option.getD_some] at hreglen
            have hml : min l c.buff.length ≤ l := Nat.min_le_left _ _
            omega

theorem read_binary_line_ok_inv (c : Cursor) (n : Nat) (data : List Nat) (c' : Cursor)
    (h : read_binary_line c n = .ok (data, c')) :
    c'.buff = c.buff ∧ data = (c.buff.drop c.pos).take n ∧ data.length = n ∧
    c'.pos = c.pos + n + 2 ∧ c.pos + n + 2 ≤ c.buff.length ∧
    c.buff.getD (c.pos + n) 0 = 13 ∧ c.buff.getD (c.pos + n + 1) 0 = 10 := by
  unfold read_binary_line at h
  split at h
  · simp at h
  · rename_i h1
    split at h
    · simp at h
    · rename_i h2
      push_neg at h2
      simp only [Except.ok.injEq, Prod.mk.injEq] at h
      obtain ⟨hdata, hc'⟩ := h
      have hg13 : c.buff.getD (c.pos + n) 0 = 13 := by
        simpa [List.getD] using h2.1
      have hg10 : c.buff.getD (c.pos + n + 1) 0 = 10 := by
        simpa [List.getD] using h2.2
      refine ⟨hc'.symm ▸ rfl, hdata.symm, ?_, by rw [← hc'], by omega, hg13, hg10⟩
      rw [← hdata]
      simp
      omega

end DiyRedis

namespace DiyRedis

theorem read_line_eval_found (c : Cursor) (lim : Option Nat) (crPos : Nat)
    (hm : memchr 13 ((c.buff.drop c.pos).take
      (min (lim.getD c.buff.length) c.buff.length - c.pos)) = some crPos) :
    read_line_with_limit c lim =
      if (memchr 10 ((c.buff.drop c.pos).take (crPos + 1))).isSome then
        .error (.ProtocolError msgLfWrongPos)
      else if c.buff.length ≤ c.pos + crPos + 1 then
        .error .Incomplete
      else if c.buff.getD (c.pos + crPos + 1) 0 ≠ 10 then
        .error (.ProtocolError msgLfNotAfterCr)
      else
        .ok ((c.buff.drop c.pos).take crPos, ⟨c.buff, c.pos + crPos + 2⟩) := by
  unfold read_line_with_limit
  rw [hm]

theorem read_line_eval_none (c : Cursor) (lim : Option Nat)
    (hm : memchr 13 ((c.buff.drop c.pos).take
      (min (lim.getD c.buff.length) c.buff.length - c.pos)) = none) :
    read_line_with_limit c lim =
      match lim with
      | some l =>
        if c.buff.length < l then .error (.ProtocolError msgCrlfNotFound)
        else .error .Incomplete
      | none => .error .Incomplete := by
  unfold read_line_with_limit
  rw [hm]
  cases lim <;> rfl

theorem read_line_complete (x : Nat) (content rest : List Nat) (lim : Option Nat)
    (hcr : memchr 13 content = none) (hlf : memchr 10 content = none)
    (hlim : content.length + 1 < lim.getD (x :: (content ++ 13 :: 10 :: rest)).length) :
    read_line_with_limit ⟨x :: (content ++ 13 :: 10 :: rest), 1⟩ lim =
      .ok (content, ⟨x :: (content ++ 13 :: 10 :: rest), content.length + 3⟩) := by
  have hdrop : ((x :: (content ++ 13 :: 10 :: rest)) : List Nat).drop 1 =
      content ++ 13 :: 10 :: rest := rfl
  have hblen : ((x :: (content ++ 13 :: 10 :: rest)) : List Nat).length =
      content.length + 3 + rest.length := by
    simp
    omega
  have hstoplb : content.length + 2 ≤
      min (lim.getD (x :: (content ++ 13 :: 10 :: rest)).length)
        (x :: (content ++ 13 :: 10 :: rest)).length := by
    refine le_min (by omega) (by omega)
  have hm : memchr 13 (((x :: (content ++ 13 :: 10 :: rest)) : List Nat).drop 1 |>.take
      (min (lim.getD (x :: (content ++ 13 :: 10 :: rest)).length)
        (x :: (content ++ 13 :: 10 :: rest)).length - 1)) = some content.length := by
    rw [hdrop]
    obtain ⟨j, hj, hj1⟩ : ∃ j, min (lim.getD (x :: (content ++ 13 :: 10 :: rest)).length)
        (x :: (content ++ 13 :: 10 :: rest)).length - 1 = content.length + j ∧ 1 ≤ j := by
      refine ⟨min (lim.getD (x :: (content ++ 13 :: 10 :: rest)).length)
        (x :: (content ++ 13 :: 10 :: rest)).length - 1 - content.length, by omega, by omega⟩
    rw [hj]
    rw [take_append_len]
    obtain ⟨j', hj'⟩ : ∃ j', j = j' + 1 := ⟨j - 1, by omega⟩
    subst hj'
    rw [show ((13 :: 10 :: rest : List Nat).take (j' + 1)) = 13 :: ((10 :: rest : List Nat).take j') from rfl]
    exact memchr_append_hit 13 content _ hcr
  have h1 : memchr 10 ((((x :: (content ++ 13 :: 10 :: rest)) : List Nat).drop 1).take
      (content.length + 1)) = none := by
    rw [hdrop, show content.length + 1 = content.length + 1 from rfl, take_append_len]
    exact memchr_append_none 10 content _ hlf (by simp [memchr])
  have hgd : ((x :: (content ++ 13 :: 10 :: rest)) : List Nat).getD (1 + content.length + 1) 0
      = 10 := by
    rw [show ((x :: (content ++ 13 :: 10 :: rest)) : List Nat) =
      [x] ++ (content ++ 13 :: 10 :: rest) from rfl]
    rw [show 1 + content.length + 1 = ([x] : List Nat).length + (content.length + 1) by
      simp only [List.length_singleton]
      omega]
    rw [getD_append_len]
    rw [show content.length + 1 = content.length + 1 from rfl]
    have := getD_append_len content (13 :: 10 :: rest) 1
    simpa using this
  have := read_line_eval_found ⟨x :: (content ++ 13 :: 10 :: rest), 1⟩ lim content.length hm
  rw [this]
  dsimp only
  rw [if_neg (by rw [h1]; simp)]
  rw [if_neg (by rw [hblen]; omega)]
  rw [if_neg (by rw [hgd]; simp)]
  rw [hdrop]
  rw [show (content ++ 13 :: 10 :: rest).take content.length = content by
    have h := take_append_len content (13 :: 10 :: rest) 0
    simp only [Nat.add_zero, List.take_zero, List.append_nil] at h
    exact h]
  rw [show (1 : Nat) + content.length + 2 = content.length + 3 by omega]

end DiyRedis

namespace DiyRedis

theorem valI_ge (ds : List Nat) : ∀ acc : Int, 0 ≤ acc → acc ≤ valI acc ds ∧ 0 ≤ valI acc ds := by
  induction ds with
  | nil => intro acc h; simp [valI]; omega
  | cons d ds ih =>
    intro acc h
    have hd : (0 : Int) ≤ ((d - 48 : Nat) : Int) := Int.ofNat_nonneg _
    have hstep : acc ≤ acc * 10 + ((d - 48 : Nat) : Int) := by nlinarith
    have hstep0 : (0 : Int) ≤ acc * 10 + ((d - 48 : Nat) : Int) := by nlinarith
    obtain ⟨h1, h2⟩ := ih (acc * 10 + ((d - 48 : Nat) : Int)) hstep0
    exact ⟨by simp only [valI]; omega, by simp only [valI]; omega⟩

theorem valNegI_le (ds : List Nat) :
    ∀ acc : Int, acc ≤ 0 → valNegI acc ds ≤ acc ∧ valNegI acc ds ≤ 0 := by
  induction ds with
  | nil => intro acc h; simp [valNegI]; omega
  | cons d ds ih =>
    intro acc h
    have hd : (0 : Int) ≤ ((d - 48 : Nat) : Int) := Int.ofNat_nonneg _
    have hstep : acc * 10 - ((d - 48 : Nat) : Int) ≤ acc := by nlinarith
    have hstep0 : acc * 10 - ((d - 48 : Nat) : Int) ≤ 0 := by nlinarith
    obtain ⟨h1, h2⟩ := ih (acc * 10 - ((d - 48 : Nat) : Int)) hstep0
    exact ⟨by simp only [valNegI]; omega, by simp only [valNegI]; omega⟩

theorem goPos_spec (lo hi : Int) (hlo : lo ≤ 0) (ds : List Nat) :
    ∀ acc : Int, 0 ≤ acc → acc ≤ hi →
    goPos lo hi acc ds =
      if allDigits ds ∧ valI acc ds ≤ hi then some (valI acc ds) else none := by
  induction ds with
  | nil =>
    intro acc hacc hhi
    simp [goPos, allDigits, valI, hhi]
  | cons d ds ih =>
    intro acc hacc hhi
    cases hd : digitVal d with
    | none => simp [goPos, hd, allDigits, valI]
    | some x =>
      have hx : x = d - 48 ∧ 48 ≤ d ∧ d ≤ 57 := by
        unfold digitVal at hd
        split at hd
        · exact ⟨by injection hd with h'; omega, by omega, by omega⟩
        · simp at hd
      have hxv : ((x : Nat) : Int) = ((d - 48 : Nat) : Int) := by
        rw [hx.1]
      have hvstep : valI acc (d :: ds) = valI (acc * 10 + ((d - 48 : Nat) : Int)) ds := rfl
      have hadig : allDigits (d :: ds) = allDigits ds := by
        simp [allDigits, hd]
      by_cases hc1 : acc * 10 < lo ∨ hi < acc * 10
      · have hgt : hi < acc * 10 := by
          rcases hc1 with h | h
          · omega
          · exact h
        have hge := valI_ge ds (acc * 10 + ((d - 48 : Nat) : Int))
          (by have := Int.ofNat_nonneg (d - 48); nlinarith)
        have : hi < valI acc (d :: ds) := by
          rw [hvstep]
          have := Int.ofNat_nonneg (d - 48)
          omega
        simp only [goPos, hd, if_pos hc1]
        rw [if_neg]
        intro hcon
        omega
      · by_cases hc2 : acc * 10 + x < lo ∨ hi < acc * 10 + x
        · have hgt : hi < acc * 10 + ((x : Nat) : Int) := by
            rcases hc2 with h | h
            · push_neg at hc1
              have := Int.ofNat_nonneg x
              omega
            · exact h
          have hge := valI_ge ds (acc * 10 + ((d - 48 : Nat) : Int))
            (by have := Int.ofNat_nonneg (d - 48); nlinarith)
          have : hi < valI acc (d :: ds) := by
            rw [hvstep]
            rw [hxv] at hgt
            omega
          simp only [goPos, hd, if_neg hc1, if_pos hc2]
          rw [if_neg]
          intro hcon
          omega
        · push_neg at hc1
          push_neg at hc2
          have hrec := ih (acc * 10 + ((x : Nat) : Int)) (by
              have := Int.ofNat_nonneg x
              nlinarith) hc2.2
          simp only [goPos, hd, if_neg (by push_neg; exact hc1 : ¬(acc * 10 < lo ∨ hi < acc * 10)),
            if_neg (by push_neg; exact hc2 : ¬(acc * 10 + ↑x < lo ∨ hi < acc * 10 + ↑x))]
          rw [hrec, hvstep, hadig, hxv]

theorem goNeg_spec (lo hi : Int) (hhi : 0 ≤ hi) (ds : List Nat) :
    ∀ acc : Int, acc ≤ 0 → lo ≤ acc →
    goNeg lo hi acc ds =
      if allDigits ds ∧ lo ≤ valNegI acc ds then some (valNegI acc ds) else none := by
  induction ds with
  | nil =>
    intro acc hacc hlo
    simp [goNeg, allDigits, valNegI, hlo]
  | cons d ds ih =>
    intro acc hacc hlo
    cases hd : digitVal d with
    | none => simp [goNeg, hd, allDigits, valNegI]
    | some x =>
      have hx : x = d - 48 ∧ 48 ≤ d ∧ d ≤ 57 := by
        unfold digitVal at hd
        split at hd
        · exact ⟨by injection hd with h'; omega, by omega, by omega⟩
        · simp at hd
      have hxv : ((x : Nat) : Int) = ((d - 48 : Nat) : Int) := by
        rw [hx.1]
      have hvstep : valNegI acc (d :: ds) = valNegI (acc * 10 - ((d - 48 : Nat) : Int)) ds := rfl
      have hadig : allDigits (d :: ds) = allDigits ds := by
        simp [allDigits, hd]
      by_cases hc1 : acc * 10 < lo ∨ hi < acc * 10
      · have hlt : acc * 10 < lo := by
          rcases hc1 with h | h
          · exact h
          · nlinarith
        have hle := valNegI_le ds (acc * 10 - ((d - 48 : Nat) : Int))
          (by have := Int.ofNat_nonneg (d - 48); nlinarith)
        have : valNegI acc (d :: ds) < lo := by
          rw [hvstep]
          have := Int.ofNat_nonneg (d - 48)
          omega
        simp only [goNeg, hd, if_pos hc1]
        rw [if_neg]
        intro hcon
        omega
      · by_cases hc2 : acc * 10 - x < lo ∨ hi < acc * 10 - x
        · have hlt : acc * 10 - ((x : Nat) : Int) < lo := by
            rcases hc2 with h | h
            · exact h
            · push_neg at hc1
              have := Int.ofNat_nonneg x
              omega
          have hle := valNegI_le ds (acc * 10 - ((d - 48 : Nat) : Int))
            (by have := Int.ofNat_nonneg (d - 48); nlinarith)
          have : valNegI acc (d :: ds) < lo := by
            rw [hvstep]
            rw [hxv] at hlt
            omega
          simp only [goNeg, hd, if_neg hc1, if_pos hc2]
          rw [if_neg]
          intro hcon
          omega
        · push_neg at hc1
          push_neg at hc2
          have hrec := ih (acc * 10 - ((x : Nat) : Int)) (by
              have := Int.ofNat_nonneg x
              nlinarith) hc2.1
          simp only [goNeg, hd, if_neg (by push_neg; exact hc1 : ¬(acc * 10 < lo ∨ hi < acc * 10)),
            if_neg (by push_neg; exact hc2 : ¬(acc * 10 - ↑x < lo ∨ hi < acc * 10 - ↑x))]
          rw [hrec, hvstep, hadig, hxv]

end DiyRedis

namespace DiyRedis

theorem valI_eq_decValue (ds : List Nat) :
    ∀ n : Nat, valI (n : Int) ds = ((decValue n ds : Nat) : Int) := by
  induction ds with
  | nil => intro n; rfl
  | cons d ds ih =>
    intro n
    have h1 : valI (n : Int) (d :: ds) = valI ((n : Int) * 10 + ((d - 48 : Nat) : Int)) ds := rfl
    have h2 : decValue n (d :: ds) = decValue (n * 10 + (d - 48)) ds := rfl
    rw [h1, h2, show ((n : Int)) * 10 + ((d - 48 : Nat) : Int) = ((n * 10 + (d - 48) : Nat) : Int) by
      push_cast
      ring]
    exact ih (n * 10 + (d - 48))

theorem valNegI_eq (ds : List Nat) :
    ∀ n : Nat, valNegI (-(n : Int)) ds = -((decValue n ds : Nat) : Int) := by
  induction ds with
  | nil => intro n; rfl
  | cons d ds ih =>
    intro n
    have h1 : valNegI (-(n : Int)) (d :: ds) =
        valNegI ((-(n : Int)) * 10 - ((d - 48 : Nat) : Int)) ds := rfl
    have h2 : decValue n (d :: ds) = decValue (n * 10 + (d - 48)) ds := rfl
    rw [h1, h2, show (-(n : Int)) * 10 - ((d - 48 : Nat) : Int) =
        -((n * 10 + (d - 48) : Nat) : Int) by
      push_cast
      ring]
    exact ih (n * 10 + (d - 48))

theorem btoi_eq_btoiSpec (lo hi : Int) (hlo : lo ≤ 0) (hhi : 0 ≤ hi) (bytes : List Nat) :
    btoi lo hi bytes = btoiSpec lo hi bytes := by
  cases bytes with
  | nil => rfl
  | cons b rest =>
    by_cases hb43 : b = 43
    · subst hb43
      cases rest with
      | nil => rfl
      | cons r rs =>
        have hlhs : btoi lo hi (43 :: r :: rs) = goPos lo hi 0 (r :: rs) := by
          simp [btoi]
        have hrhs : btoiSpec lo hi (43 :: r :: rs) =
            (if allDigits (r :: rs) then
              (if lo ≤ ((decValue 0 (r :: rs) : Nat) : Int) ∧
                  ((decValue 0 (r :: rs) : Nat) : Int) ≤ hi then
                some ((decValue 0 (r :: rs) : Nat) : Int)
              else none)
            else none) := by
          simp [btoiSpec]
        have hval : valI (0 : Int) (r :: rs) = ((decValue 0 (r :: rs) : Nat) : Int) := by
          have := valI_eq_decValue (r :: rs) 0
          simpa using this
        rw [hlhs, hrhs, goPos_spec lo hi hlo (r :: rs) 0 le_rfl hhi, hval]
        have hge : (0 : Int) ≤ ((decValue 0 (r :: rs) : Nat) : Int) := Int.ofNat_nonneg _
        by_cases had : allDigits (r :: rs)
        · by_cases hv : ((decValue 0 (r :: rs) : Nat) : Int) ≤ hi
          · rw [if_pos ⟨had, hv⟩, if_pos had, if_pos ⟨by omega, hv⟩]
          · rw [if_neg (fun hc => hv hc.2), if_pos had, if_neg (fun hc => hv hc.2)]
        · rw [if_neg (fun hc => had hc.1), if_neg had]
    · by_cases hb45 : b = 45
      · subst hb45
        cases rest with
        | nil => rfl
        | cons r rs =>
          have hlhs : btoi lo hi (45 :: r :: rs) = goNeg lo hi 0 (r :: rs) := by
            simp [btoi]
          have hrhs : btoiSpec lo hi (45 :: r :: rs) =
              (if allDigits (r :: rs) then
                (if lo ≤ -((decValue 0 (r :: rs) : Nat) : Int) ∧
                    -((decValue 0 (r :: rs) : Nat) : Int) ≤ hi then
                  some (-((decValue 0 (r :: rs) : Nat) : Int))
                else none)
              else none) := by
            simp [btoiSpec]
          have hval : valNegI (0 : Int) (r :: rs) = -((decValue 0 (r :: rs) : Nat) : Int) := by
            have := valNegI_eq (r :: rs) 0
            simpa using this
          rw [hlhs, hrhs, goNeg_spec lo hi hhi (r :: rs) 0 le_rfl hlo, hval]
          have hge : (0 : Int) ≤ ((decValue 0 (r :: rs) : Nat) : Int) := Int.ofNat_nonneg _
          by_cases had : allDigits (r :: rs)
          · by_cases hv : lo ≤ -((decValue 0 (r :: rs) : Nat) : Int)
            · rw [if_pos ⟨had, hv⟩, if_pos had, if_pos ⟨hv, by omega⟩]
            · rw [if_neg (fun hc => hv hc.2), if_pos had, if_neg (fun hc => hv hc.1)]
          · rw [if_neg (fun hc => had hc.1), if_neg had]
      · have hlhs : btoi lo hi (b :: rest) = goPos lo hi 0 (b :: rest) := by
          simp [btoi, hb43, hb45]
        have hrhs : btoiSpec lo hi (b :: rest) =
            (if allDigits (b :: rest) then
              (if lo ≤ ((decValue 0 (b :: rest) : Nat) : Int) ∧
                  ((decValue 0 (b :: rest) : Nat) : Int) ≤ hi then
                some ((decValue 0 (b :: rest) : Nat) : Int)
              else none)
            else none) := by
          simp [btoiSpec, hb43, hb45]
        have hval : valI (0 : Int) (b :: rest) = ((decValue 0 (b :: rest) : Nat) : Int) := by
          have := valI_eq_decValue (b :: rest) 0
          simpa using this
        rw [hlhs, hrhs, goPos_spec lo hi hlo (b :: rest) 0 le_rfl hhi, hval]
        have hge : (0 : Int) ≤ ((decValue 0 (b :: rest) : Nat) : Int) := Int.ofNat_nonneg _
        by_cases had : allDigits (b :: rest)
        · by_cases hv : ((decValue 0 (b :: rest) : Nat) : Int) ≤ hi
          · rw [if_pos ⟨had, hv⟩, if_pos had, if_pos ⟨by omega, hv⟩]
          · rw [if_neg (fun hc => hv hc.2), if_pos had, if_neg (fun hc => hv hc.2)]
        · rw [if_neg (fun hc => had hc.1), if_neg had]

end DiyRedis

namespace DiyRedis

theorem get_u8_cons (x : Nat) (t : List Nat) : get_u8 ⟨x :: t, 0⟩ = .ok (x, ⟨x :: t, 1⟩) := by
  unfold get_u8
  simp

/-- C4: for every buffer whose first byte is ':' followed by a complete
CRLF-terminated line, parse applies the reference signed decimal grammar
(btoiSpec: optional single leading '+' or '-', otherwise only ASCII digits,
at least one, leading zeros permitted) over the full closed i64 range
[-9223372036854775808, 9223372036854775807]; a line outside that grammar or
range is ProtocolError (never a wrapped or truncated value), and otherwise
the result is Integer of the exact decimal value, consuming the line. -/
theorem C4_thm_integer_frame (content rest : List Nat)
    (hcr : memchr 13 content = none) (hlf : memchr 10 content = none) :
    parse ⟨58 :: (content ++ 13 :: 10 :: rest), 0⟩ =
      match btoiSpec i64Min i64Max content with
      | some v => .ok (.Integer v) ⟨58 :: (content ++ 13 :: 10 :: rest), content.length + 3⟩
      | none => .err (.ProtocolError msgInvalidInteger) := by
  have hg : get_u8 ⟨58 :: (content ++ 13 :: 10 :: rest), 0⟩ =
      .ok (58, ⟨58 :: (content ++ 13 :: 10 :: rest), 1⟩) := get_u8_cons 58 _
  have hrl : read_line ⟨58 :: (content ++ 13 :: 10 :: rest), 1⟩ =
      .ok (content, ⟨58 :: (content ++ 13 :: 10 :: rest), content.length + 3⟩) := by
    unfold read_line
    refine read_line_complete 58 content rest none hcr hlf ?_
    simp
  have hbi : btoi i64Min i64Max content = btoiSpec i64Min i64Max content :=
    btoi_eq_btoiSpec i64Min i64Max (by norm_num [i64Min]) (by norm_num [i64Max]) content
  cases hbs : btoiSpec i64Min i64Max content with
  | some v =>
    simp [parse, hg, hrl, Frame.integer, hbi, hbs]
  | none =>
    simp [parse, hg, hrl, Frame.integer, hbi, hbs]

/-- Witness for C4 at the concrete buffer ":000123\r\n": leading zeros are
accepted and the exact value 123 is produced. -/
theorem C4_witness :
    parse ⟨[58, 48, 48, 48, 49, 50, 51, 13, 10], 0⟩ =
      .ok (.Integer 123) ⟨[58, 48, 48, 48, 49, 50, 51, 13, 10], 9⟩ :=
  C4_thm_integer_frame [48, 48, 48, 49, 50, 51] [] rfl rfl

end DiyRedis

namespace DiyRedis

/-- C7: for every buffer whose first byte is '+' (respectively '-') followed
by a complete CRLF-terminated line, parse returns Simple (respectively
Error) holding exactly the line's bytes — which contain no CR and no LF —
when those bytes are valid UTF-8 (the payload of the Rust String is exactly
these bytes), and ProtocolError when they are not valid UTF-8. -/
theorem C7_thm_simple_error_frames (content rest : List Nat)
    (hcr : memchr 13 content = none) (hlf : memchr 10 content = none) :
    (validUtf8 content = true →
      parse ⟨43 :: (content ++ 13 :: 10 :: rest), 0⟩ =
        .ok (.Simple content) ⟨43 :: (content ++ 13 :: 10 :: rest), content.length + 3⟩) ∧
    (validUtf8 content = false →
      parse ⟨43 :: (content ++ 13 :: 10 :: rest), 0⟩ =
        .err (.ProtocolError msgInvalidSimple)) ∧
    (validUtf8 content = true →
      parse ⟨45 :: (content ++ 13 :: 10 :: rest), 0⟩ =
        .ok (.Error content) ⟨45 :: (content ++ 13 :: 10 :: rest), content.length + 3⟩) ∧
    (validUtf8 content = false →
      parse ⟨45 :: (content ++ 13 :: 10 :: rest), 0⟩ =
        .err (.ProtocolError msgInvalidError)) ∧
    13 ∉ content ∧ 10 ∉ content := by
  have hg43 : get_u8 ⟨43 :: (content ++ 13 :: 10 :: rest), 0⟩ =
      .ok (43, ⟨43 :: (content ++ 13 :: 10 :: rest), 1⟩) := get_u8_cons 43 _
  have hg45 : get_u8 ⟨45 :: (content ++ 13 :: 10 :: rest), 0⟩ =
      .ok (45, ⟨45 :: (content ++ 13 :: 10 :: rest), 1⟩) := get_u8_cons 45 _
  have hrl43 : read_line ⟨43 :: (content ++ 13 :: 10 :: rest), 1⟩ =
      .ok (content, ⟨43 :: (content ++ 13 :: 10 :: rest), content.length + 3⟩) := by
    unfold read_line
    refine read_line_complete 43 content rest none hcr hlf ?_
    simp
  have hrl45 : read_line ⟨45 :: (content ++ 13 :: 10 :: rest), 1⟩ =
      .ok (content, ⟨45 :: (content ++ 13 :: 10 :: rest), content.length + 3⟩) := by
    unfold read_line
    refine read_line_complete 45 content rest none hcr hlf ?_
    simp
  refine ⟨?_, ?_, ?_, ?_, (memchr_none_iff 13 content).mp hcr, (memchr_none_iff 10 content).mp hlf⟩
  · intro hv
    simp [parse, hg43, hrl43, Frame.simple, hv]
  · intro hv
    simp [parse, hg43, hrl43, Frame.simple, hv]
  · intro hv
    simp [parse, hg45, hrl45, Frame.error, hv]
  · intro hv
    simp [parse, hg45, hrl45, Frame.error, hv]

/-- Witness for C7 at the concrete buffer "+\r\n": the empty simple string
(spec scenario 4). -/
theorem C7_witness :
    parse ⟨[43, 13, 10], 0⟩ = .ok (.Simple []) ⟨[43, 13, 10], 3⟩ :=
  (C7_thm_simple_error_frames [] [] rfl rfl).1 rfl

end DiyRedis

namespace DiyRedis

/-- C6: when the searched region contains a CR whose first occurrence is at
relative index crPos (absolute position p = pos + crPos), the scanner first
rejects any LF strictly before the CR as ProtocolError, then — only
afterwards — reports Incomplete when the byte after the CR does not yet
exist (so a buffer ending exactly at the CR is Incomplete, not an error),
rejects a non-LF byte after the CR as ProtocolError, and on success
advances past the CRLF returning exactly the bytes [pos, p). -/
theorem C6_thm_line_scanner_cr_found (buff : List Nat) (pos : Nat) (lim : Option Nat)
    (crPos : Nat)
    (hm : memchr 13 ((buff.drop pos).take
      (min (lim.getD buff.length) buff.length - pos)) = some crPos) :
    ((memchr 10 ((buff.drop pos).take crPos)).isSome = true →
      read_line_with_limit ⟨buff, pos⟩ lim = .error (.ProtocolError msgLfWrongPos)) ∧
    (memchr 10 ((buff.drop pos).take crPos) = none → buff.length ≤ pos + crPos + 1 →
      read_line_with_limit ⟨buff, pos⟩ lim = .error .Incomplete) ∧
    (memchr 10 ((buff.drop pos).take crPos) = none → pos + crPos + 1 < buff.length →
      buff.getD (pos + crPos + 1) 0 ≠ 10 →
      read_line_with_limit ⟨buff, pos⟩ lim = .error (.ProtocolError msgLfNotAfterCr)) ∧
    (memchr 10 ((buff.drop pos).take crPos) = none → pos + crPos + 1 < buff.length →
      buff.getD (pos + crPos + 1) 0 = 10 →
      read_line_with_limit ⟨buff, pos⟩ lim =
        .ok ((buff.drop pos).take crPos, ⟨buff, pos + crPos + 2⟩)) := by
  obtain ⟨hlt, hget, hpref⟩ := memchr_some 13 _ crPos hm
  have hlen : crPos < (buff.drop pos).length := by
    have := List.length_take (min (lim.getD buff.length) buff.length - pos) (buff.drop pos)
    omega
  have h13 : (buff.drop pos).getD crPos 0 = 13 := by
    have hkey := getD_take (buff.drop pos) (min (lim.getD buff.length) buff.length - pos) crPos
      (by have := List.length_take (min (lim.getD buff.length) buff.length - pos)
            (buff.drop pos)
          omega)
    rw [hkey] at hget
    exact hget
  have hsplit : (buff.drop pos).take (crPos + 1) = (buff.drop pos).take crPos ++ [13] := by
    rw [take_succ_getD _ _ hlen, h13]
  have key : memchr 10 ((buff.drop pos).take (crPos + 1)) = none ↔
      memchr 10 ((buff.drop pos).take crPos) = none := by
    rw [hsplit, memchr_none_iff, memchr_none_iff]
    simp
  have heval := read_line_eval_found ⟨buff, pos⟩ lim crPos hm
  refine ⟨?_, ?_, ?_, ?_⟩
  · intro hip
    rw [heval]
    dsimp only
    rw [if_pos ?_]
    rw [Option.isSome_iff_ne_none] at hip ⊢
    intro hcon
    exact hip (key.mp hcon)
  · intro h0 hle
    rw [heval]
    dsimp only
    rw [if_neg (by simp [key.mpr h0]), if_pos hle]
  · intro h0 hlt2 hne
    rw [heval]
    dsimp only
    rw [if_neg (by simp [key.mpr h0]), if_neg (by omega), if_pos hne]
  · intro h0 hlt2 h10
    rw [heval]
    dsimp only
    rw [if_neg (by simp [key.mpr h0]), if_neg (by omega),
      if_neg (fun hc => hc h10)]

/-- Witness for C6 at the concrete buffer "a\r\n" from position 0 with no
limit: the CR sits at absolute position 1, the LF exists, and the scanner
returns the one-byte line. -/
theorem C6_witness :
    read_line_with_limit ⟨[97, 13, 10], 0⟩ none = .ok ([97], ⟨[97, 13, 10], 3⟩) :=
  (C6_thm_line_scanner_cr_found [97, 13, 10] 0 none 1 rfl).2.2.2 rfl (by decide) rfl

end DiyRedis

namespace DiyRedis

/-- C9: parse is deterministic and purely computational — its outcome is a
function of nothing but the buffer bytes and the start position, so two
invocations on cursors with equal contents and equal positions agree. -/
theorem C9_thm_deterministic (c1 c2 : Cursor) (hb : c1.buff = c2.buff)
    (hp : c1.pos = c2.pos) : parse c1 = parse c2 := by
  cases c1
  cases c2
  dsimp only at hb hp
  subst hb
  subst hp
  rfl

/-- Witness for C9 at two structurally equal cursors. -/
theorem C9_witness : parse ⟨[43, 13, 10], 0⟩ = parse ⟨[43, 13, 10], 0⟩ :=
  C9_thm_deterministic ⟨[43, 13, 10], 0⟩ ⟨[43, 13, 10], 0⟩ rfl rfl

theorem read_line_err_cases (c : Cursor) (lim : Option Nat) (e : Error)
    (h : read_line_with_limit c lim = .error e) :
    e = .Incomplete ∨ e = .ProtocolError msgCrlfNotFound ∨
    e = .ProtocolError msgLfWrongPos ∨ e = .ProtocolError msgLfNotAfterCr := by
  unfold read_line_with_limit at h
  split at h
  · split at h
    · split at h <;>
        (simp only [Except.error.injEq] at h; subst h; tauto)
    · simp only [Except.error.injEq] at h
      subst h
      tauto
  · split at h
    · simp only [Except.error.injEq] at h
      subst h
      tauto
    · split at h
      · simp only [Except.error.injEq] at h
        subst h
        tauto
      · split at h
        · simp only [Except.error.injEq] at h
          subst h
          tauto
        · simp at h

theorem read_binary_line_err_cases (c : Cursor) (n : Nat) (e : Error)
    (h : read_binary_line c n = .error e) :
    e = .Incomplete ∨ e = .ProtocolError msgMissingFinalCrlf := by
  unfold read_binary_line at h
  split at h
  · simp only [Except.error.injEq] at h
    subst h
    tauto
  · split at h
    · simp only [Except.error.injEq] at h
      subst h
      tauto
    · simp at h

/-- C10: the defensive "bulk string length mismatch" branch is unreachable:
read_binary_line only succeeds with a slice of exactly the requested
length, so Frame::bulk can never surface that error. -/
theorem C10_thm_length_mismatch_unreachable :
    (∀ (c : Cursor) (n : Nat) (data : List Nat) (c' : Cursor),
      read_binary_line c n = .ok (data, c') → data.length = n) ∧
    (∀ c : Cursor, Frame.bulk c ≠ .error (.ProtocolError msgLenMismatch)) := by
  have hlen : ∀ (c : Cursor) (n : Nat) (data : List Nat) (c' : Cursor),
      read_binary_line c n = .ok (data, c') → data.length = n := by
    intro c n data c' h
    exact (read_binary_line_ok_inv c n data c' h).2.2.1
  refine ⟨hlen, ?_⟩
  intro c hcon
  unfold Frame.bulk at hcon
  split at hcon
  · rename_i e heq
    simp only [Except.error.injEq] at hcon
    subst hcon
    rcases read_line_err_cases _ _ _ heq with h | h | h | h <;>
      simp [msgCrlfNotFound, msgLfWrongPos, msgLfNotAfterCr, msgLenMismatch] at h
  · rename_i p heq
    obtain ⟨lenLine, c1⟩ := p
    split at hcon
    · simp only [Except.error.injEq, Error.ProtocolError.injEq] at hcon
      simp [msgInvalidBulkDigit, msgLenMismatch] at hcon
    · rename_i len hbi
      split at hcon
      · simp at hcon
      · split at hcon
        · simp only [Except.error.injEq, Error.ProtocolError.injEq] at hcon
          simp [msgInvalidBulkLen, msgLenMismatch] at hcon
        · split at hcon
          · rename_i e heq2
            simp only [Except.error.injEq] at hcon
            subst hcon
            rcases read_binary_line_err_cases _ _ _ heq2 with h | h <;>
              simp [msgMissingFinalCrlf, msgLenMismatch] at h
          · rename_i p2 heq2
            obtain ⟨data, c2⟩ := p2
            split at hcon
            · rename_i hne
              exact hne (hlen _ _ _ _ heq2)
            · simp at hcon

/-- Witness for C10: read_binary_line on "a\r\n" returns a one-byte slice. -/
theorem C10_witness : ([97] : List Nat).length = 1 :=
  C10_thm_length_mismatch_unreachable.1 ⟨[97, 13, 10], 0⟩ 1 [97] ⟨[97, 13, 10], 3⟩ rfl

end DiyRedis

namespace DiyRedis

theorem parse_dollar (buff : List Nat) (h0 : buff.getD 0 0 = 36) (hlen0 : 0 < buff.length) :
    parse ⟨buff, 0⟩ =
      (match Frame.bulk ⟨buff, 1⟩ with
       | .error e => .err e
       | .ok (f, c2) => .ok f c2) := by
  have hg : get_u8 ⟨buff, 0⟩ = .ok (36, ⟨buff, 1⟩) := by
    unfold get_u8
    dsimp only
    rw [if_pos hlen0, h0]
  simp [parse, hg]

/-- C5: for every buffer whose first byte is '$' whose 32-bit length header
parses successfully (the bounded line scan at limit 12 succeeds and btoi at
i32 bounds accepts the header): length -1 gives Null, lengths below -1 give
ProtocolError, and a length n >= 0 demands n + 2 further bytes (else
Incomplete), takes exactly n raw bytes verbatim as the payload, and demands
the following two bytes be CR then LF (else ProtocolError), producing Bulk
of exactly n bytes. -/
theorem C5_thm_bulk_frame (buff : List Nat) (header : List Nat) (c1 : Cursor) (len : Int)
    (h0 : buff.getD 0 0 = 36) (hlen0 : 0 < buff.length)
    (hhdr : read_line_with_limit ⟨buff, 1⟩ (some 12) = .ok (header, c1))
    (hbi : btoi i32Min i32Max header = some len) :
    (len = -1 → parse ⟨buff, 0⟩ = .ok .Null c1) ∧
    (len < -1 → parse ⟨buff, 0⟩ = .err (.ProtocolError msgInvalidBulkLen)) ∧
    (0 ≤ len → buff.length - c1.pos < len.toNat + 2 →
      parse ⟨buff, 0⟩ = .err .Incomplete) ∧
    (0 ≤ len → len.toNat + 2 ≤ buff.length - c1.pos →
      buff.getD (c1.pos + len.toNat) 0 = 13 → buff.getD (c1.pos + len.toNat + 1) 0 = 10 →
      parse ⟨buff, 0⟩ =
        .ok (.Bulk ((buff.drop c1.pos).take len.toNat)) ⟨buff, c1.pos + len.toNat + 2⟩ ∧
      ((buff.drop c1.pos).take len.toNat).length = len.toNat) ∧
    (0 ≤ len → len.toNat + 2 ≤ buff.length - c1.pos →
      ¬(buff.getD (c1.pos + len.toNat) 0 = 13 ∧ buff.getD (c1.pos + len.toNat + 1) 0 = 10) →
      parse ⟨buff, 0⟩ = .err (.ProtocolError msgMissingFinalCrlf)) := by
  have hcb : c1.buff = buff := (read_line_ok_inv _ _ _ _ hhdr).1
  have hpd := parse_dollar buff h0 hlen0
  refine ⟨?_, ?_, ?_, ?_, ?_⟩
  · intro hm1
    rw [hpd]
    simp [Frame.bulk, hhdr, hbi, hm1]
  · intro hlt
    rw [hpd]
    simp [Frame.bulk, hhdr, hbi, (by omega : ¬ len = -1), hlt]
    rw [if_neg (by omega : ¬ (len = -1))]
  · intro hge hrem
    have hrb : read_binary_line c1 len.toNat = .error .Incomplete := by
      unfold read_binary_line
      rw [hcb]
      rw [if_pos hrem]
    rw [hpd]
    simp [Frame.bulk, hhdr, hbi, (by omega : ¬ len = -1), (by omega : ¬ len < -1), hrb]
    rw [if_neg (by omega : ¬ (len = -1)), if_neg (by omega : ¬ (len < -1))]
  · intro hge hrem hg13 hg10
    have hrb : read_binary_line c1 len.toNat =
        .ok ((buff.drop c1.pos).take len.toNat, ⟨buff, c1.pos + len.toNat + 2⟩) := by
      unfold read_binary_line
      rw [hcb]
      rw [if_neg (by omega)]
      rw [if_neg (by push_neg; exact ⟨hg13, hg10⟩)]
    have hdlen : ((buff.drop c1.pos).take len.toNat).length = len.toNat := by
      simp
      omega
    refine ⟨?_, hdlen⟩
    rw [hpd]
    simp [Frame.bulk, hhdr, hbi, (by omega : ¬ len = -1), (by omega : ¬ len < -1), hrb, hdlen]
    rw [if_neg (by omega : ¬ (len = -1)), if_neg (by omega : ¬ (len < -1))]
  · intro hge hrem hne
    have hrb : read_binary_line c1 len.toNat = .error (.ProtocolError msgMissingFinalCrlf) := by
      unfold read_binary_line
      rw [hcb]
      rw [if_neg (by omega)]
      rw [if_pos (by tauto)]
    rw [hpd]
    simp [Frame.bulk, hhdr, hbi, (by omega : ¬ len = -1), (by omega : ¬ len < -1), hrb]
    rw [if_neg (by omega : ¬ (len = -1)), if_neg (by omega : ¬ (len < -1))]

/-- Witness for C5 at the concrete buffer with header "3" and payload
"abc": the three raw bytes are taken verbatim. -/
theorem C5_witness :
    parse ⟨[36, 51, 13, 10, 97, 98, 99, 13, 10], 0⟩ =
      .ok (.Bulk [97, 98, 99]) ⟨[36, 51, 13, 10, 97, 98, 99, 13, 10], 9⟩ :=
  (C5_thm_bulk_frame [36, 51, 13, 10, 97, 98, 99, 13, 10] [51]
    ⟨[36, 51, 13, 10, 97, 98, 99, 13, 10], 4⟩ 3 rfl (by decide) rfl rfl).2.2.2.1
    (by decide) (by decide) rfl rfl |>.1

end DiyRedis

namespace DiyRedis

theorem slice_cons (l : List Nat) (p k : Nat) (hp : p < l.length) :
    (l.drop p).take (k + 1) = l.getD p 0 :: (l.drop (p + 1)).take k := by
  rw [drop_eq_getD_cons l p hp]
  rfl

theorem slice_crlf (l : List Nat) (s n : Nat) (h : s + n + 1 < l.length) :
    (l.drop s).take (n + 2) =
      (l.drop s).take n ++ [l.getD (s + n) 0, l.getD (s + n + 1) 0] := by
  have hlen1 : n + 1 < (l.drop s).length := by
    simp
    omega
  have hlen0 : n < (l.drop s).length := by omega
  rw [show n + 2 = (n + 1) + 1 from rfl]
  rw [take_succ_getD _ _ hlen1, take_succ_getD _ _ hlen0]
  rw [getD_drop, getD_drop]
  rw [show s + (n + 1) = s + n + 1 by omega]
  simp

theorem slice_line_block (l : List Nat) (s k : Nat) (line : List Nat)
    (hline : line = (l.drop s).take line.length)
    (h13 : l.getD (s + line.length) 0 = 13)
    (h10 : l.getD (s + line.length + 1) 0 = 10)
    (hlt : s + line.length + 1 < l.length) :
    (l.drop s).take ((line.length + 2) + k) =
      (line ++ [13, 10]) ++ (l.drop (s + line.length + 2)).take k := by
  rw [List.take_add]
  congr 1
  · rw [slice_crlf l s line.length hlt, h13, h10, ← hline]
  · rw [List.drop_drop]
    congr 2

end DiyRedis

namespace DiyRedis

theorem line_geometry (buff : List Nat) (s : Nat) (lim : Option Nat) (line : List Nat)
    (c2 : Cursor) (hr : read_line_with_limit ⟨buff, s⟩ lim = .ok (line, c2)) :
    c2.buff = buff ∧
    line = (buff.drop s).take line.length ∧
    c2.pos = s + line.length + 2 ∧
    memchr 13 line = none ∧ memchr 10 line = none ∧
    buff.getD (s + line.length) 0 = 13 ∧ buff.getD (s + line.length + 1) 0 = 10 ∧
    s + line.length + 1 < buff.length ∧
    (∀ l, lim = some l → s + line.length < l) := by
  have h := read_line_ok_inv ⟨buff, s⟩ lim line c2 hr
  dsimp only at h
  exact h

theorem line_slice (buff : List Nat) (s : Nat) (line : List Nat)
    (hline : line = (buff.drop s).take line.length)
    (h13 : buff.getD (s + line.length) 0 = 13)
    (h10 : buff.getD (s + line.length + 1) 0 = 10)
    (hlt : s + line.length + 1 < buff.length) :
    (buff.drop s).take (line.length + 2) = line ++ [13, 10] := by
  have h := slice_line_block buff s 0 line hline h13 h10 hlt
  simpa using h

/-- C8: every successful parse leaves the cursor exactly past a
grammar-level encoding of the decoded frame: the final position equals the
starting position plus the length of the consumed bytes, and those bytes
form an encoding of the returned frame, so consecutive complete frames
decode one after another from successive positions. -/
theorem C8_thm_consumed_is_encoding (c : Cursor) (f : Frame) (c' : Cursor)
    (h : parse c = .ok f c') :
    c'.buff = c.buff ∧
    ∃ enc, Encodes f enc ∧ c'.pos = c.pos + enc.length ∧
      (c.buff.drop c.pos).take (c'.pos - c.pos) = enc := by
  unfold parse at h
  cases hg : get_u8 c with
  | error e =>
    simp only [hg] at h
    exact ParseOutcome.noConfusion h
  | ok p =>
    obtain ⟨b, c1⟩ := p
    simp only [hg] at h
    obtain ⟨hlt, hb, hc1⟩ := get_u8_ok_inv c b c1 hg
    subst hc1
    by_cases h43 : b = 43
    · rw [if_pos h43] at h
      cases hr : read_line ⟨c.buff, c.pos + 1⟩ with
      | error e => simp [hr] at h
      | ok p2 =>
        obtain ⟨line, c2⟩ := p2
        simp only [hr] at h
        by_cases hv : validUtf8 line
        · have hs : Frame.simple line = .ok (.Simple line) := by
            unfold Frame.simple
            rw [if_pos hv]
          simp only [hs, ParseOutcome.ok.injEq] at h
          obtain ⟨hf, hc'⟩ := h
          subst hf
          subst hc'
          unfold read_line at hr
          obtain ⟨hbuff2, hline, hpos2, hcr, hlf, h13, h10, hbound, _⟩ :=
            line_geometry c.buff (c.pos + 1) none line c2 hr
          refine ⟨hbuff2, 43 :: (line ++ [13, 10]),
            Encodes.simple line hcr hlf hv, ?_, ?_⟩
          · rw [hpos2]
            simp
            omega
          · rw [hpos2]
            rw [show c.pos + 1 + line.length + 2 - c.pos = (line.length + 2) + 1 by omega]
            rw [slice_cons c.buff c.pos (line.length + 2) hlt]
            rw [line_slice c.buff (c.pos + 1) line hline h13 h10 hbound]
            rw [← hb, h43]
        · have hs : Frame.simple line = .error (.ProtocolError msgInvalidSimple) := by
            unfold Frame.simple
            rw [if_neg hv]
          simp [hs] at h
    · rw [if_neg h43] at h
      by_cases h45 : b = 45
      · rw [if_pos h45] at h
        cases hr : read_line ⟨c.buff, c.pos + 1⟩ with
        | error e => simp [hr] at h
        | ok p2 =>
          obtain ⟨line, c2⟩ := p2
          simp only [hr] at h
          by_cases hv : validUtf8 line
          · have hs : Frame.error line = .ok (.Error line) := by
              unfold Frame.error
              rw [if_pos hv]
            simp only [hs, ParseOutcome.ok.injEq] at h
            obtain ⟨hf, hc'⟩ := h
            subst hf
            subst hc'
            unfold read_line at hr
            obtain ⟨hbuff2, hline, hpos2, hcr, hlf, h13, h10, hbound, _⟩ :=
              line_geometry c.buff (c.pos + 1) none line c2 hr
            refine ⟨hbuff2, 45 :: (line ++ [13, 10]),
              Encodes.err line hcr hlf hv, ?_, ?_⟩
            · rw [hpos2]
              simp
              omega
            · rw [hpos2]
              rw [show c.pos + 1 + line.length + 2 - c.pos = (line.length + 2) + 1 by omega]
              rw [slice_cons c.buff c.pos (line.length + 2) hlt]
              rw [line_slice c.buff (c.pos + 1) line hline h13 h10 hbound]
              rw [← hb, h45]
          · have hs : Frame.error line = .error (.ProtocolError msgInvalidError) := by
              unfold Frame.error
              rw [if_neg hv]
            simp [hs] at h
      · rw [if_neg h45] at h
        by_cases h58 : b = 58
        · rw [if_pos h58] at h
          cases hr : read_line ⟨c.buff, c.pos + 1⟩ with
          | error e => simp [hr] at h
          | ok p2 =>
            obtain ⟨line, c2⟩ := p2
            simp only [hr] at h
            cases hbi : btoi i64Min i64Max line with
            | none =>
              have hs : Frame.integer line = .error (.ProtocolError msgInvalidInteger) := by
                unfold Frame.integer
                rw [hbi]
              simp [hs] at h
            | some v =>
              have hs : Frame.integer line = .ok (.Integer v) := by
                unfold Frame.integer
                rw [hbi]
              simp only [hs, ParseOutcome.ok.injEq] at h
              obtain ⟨hf, hc'⟩ := h
              subst hf
              subst hc'
              unfold read_line at hr
              obtain ⟨hbuff2, hline, hpos2, hcr, hlf, h13, h10, hbound, _⟩ :=
                line_geometry c.buff (c.pos + 1) none line c2 hr
              refine ⟨hbuff2, 58 :: (line ++ [13, 10]),
                Encodes.integer line v hcr hlf hbi, ?_, ?_⟩
              · rw [hpos2]
                simp
                omega
              · rw [hpos2]
                rw [show c.pos + 1 + line.length + 2 - c.pos = (line.length + 2) + 1 by omega]
                rw [slice_cons c.buff c.pos (line.length + 2) hlt]
                rw [line_slice c.buff (c.pos + 1) line hline h13 h10 hbound]
                rw [← hb, h58]
        · rw [if_neg h58] at h
          by_cases h36 : b = 36
          · rw [if_pos h36] at h
            unfold Frame.bulk at h
            dsimp only at h
            cases hhl : read_line_with_limit ⟨c.buff, c.pos + 1⟩ (some (c.pos + 1 + 9 + 2)) with
            | error e => simp [hhl] at h
            | ok pH =>
              obtain ⟨header, cH⟩ := pH
              simp only [hhl] at h
              cases hbi : btoi i32Min i32Max header with
              | none => simp [hbi] at h
              | some len =>
                simp only [hbi] at h
                obtain ⟨hbuffH, hheader, hposH, hcrH, hlfH, h13H, h10H, hboundH, hlimH⟩ :=
                  line_geometry c.buff (c.pos + 1) _ header cH hhl
                have hhlen : header.length ≤ 10 := by
                  have := hlimH (c.pos + 1 + 9 + 2) rfl
                  omega
                by_cases hm1 : len = -1
                · simp only [if_pos hm1, ParseOutcome.ok.injEq] at h
                  obtain ⟨hf, hc'⟩ := h
                  subst hf
                  subst hc'
                  subst hm1
                  refine ⟨hbuffH, 36 :: (header ++ [13, 10]),
                    Encodes.null header hcrH hlfH hhlen hbi, ?_, ?_⟩
                  · rw [hposH]
                    simp
                    omega
                  · rw [hposH]
                    rw [show c.pos + 1 + header.length + 2 - c.pos =
                      (header.length + 2) + 1 by omega]
                    rw [slice_cons c.buff c.pos (header.length + 2) hlt]
                    rw [line_slice c.buff (c.pos + 1) header hheader h13H h10H hboundH]
                    rw [← hb, h36]
                · rw [if_neg hm1] at h
                  by_cases hltm1 : len < -1
                  · simp [if_pos hltm1] at h
                  · rw [if_neg hltm1] at h
                    cases hrb : read_binary_line cH len.toNat with
                    | error e => simp [hrb] at h
                    | ok pB =>
                      obtain ⟨data, cB⟩ := pB
                      simp only [hrb] at h
                      obtain ⟨hbuffB, hdata, hdlen, hposB, hboundB, h13B, h10B⟩ :=
                        read_binary_line_ok_inv cH len.toNat data cB hrb
                      rw [if_neg (fun hc => hc hdlen)] at h
                      simp only [ParseOutcome.ok.injEq] at h
                      obtain ⟨hf, hc'⟩ := h
                      subst hf
                      subst hc'
                      have hlen0 : (0 : Int) ≤ len := by omega
                      have hcast : (data.length : Int) = len := by
                        rw [hdlen]
                        exact Int.toNat_of_nonneg hlen0
                      have hvenc : btoi i32Min i32Max header = some ((data.length : Int)) := by
                        rw [hcast]
                        exact hbi
                      have hbuffB' : cB.buff = c.buff := by
                        rw [hbuffB, hbuffH]
                      have hposH' : cH.pos = c.pos + 1 + header.length + 2 := hposH
                      have hdata' : data = (c.buff.drop cH.pos).take len.toNat := by
                        rw [hdata, hbuffH]
                      have h13B' : c.buff.getD (cH.pos + len.toNat) 0 = 13 := by
                        rw [← hbuffH]
                        exact h13B
                      have h10B' : c.buff.getD (cH.pos + len.toNat + 1) 0 = 10 := by
                        rw [← hbuffH]
                        exact h10B
                      have hboundB' : cH.pos + len.toNat + 2 ≤ c.buff.length := by
                        rw [← hbuffH]
                        exact hboundB
                      refine ⟨hbuffB', 36 :: ((header ++ [13, 10]) ++ (data ++ [13, 10])),
                        Encodes.bulk header data hcrH hlfH hhlen hvenc, ?_, ?_⟩
                      · rw [hposB, hposH']
                        simp
                        omega
                      · rw [hposB, hposH']
                        rw [show c.pos + 1 + header.length + 2 + len.toNat + 2 - c.pos =
                          ((header.length + 2) + (len.toNat + 2)) + 1 by omega]
                        rw [slice_cons c.buff c.pos _ hlt]
                        rw [slice_line_block c.buff (c.pos + 1) (len.toNat + 2) header
                          hheader h13H h10H hboundH]
                        rw [← hb, h36]
                        congr 2
                        have hcHpos : c.pos + 1 + header.length + 2 = cH.pos := hposH'.symm
                        rw [hcHpos]
                        rw [slice_crlf c.buff cH.pos len.toNat (by omega)]
                        rw [h13B', h10B', ← hdata']
          · rw [if_neg h36] at h
            by_cases h42 : b = 42
            · rw [if_pos h42] at h
              simp at h
            · rw [if_neg h42] at h
              simp at h

/-- Witness for C8 at the concrete buffer "+a\r\n": the four consumed bytes
are an encoding of Simple "a". -/
theorem C8_witness :
    ([43, 97, 13, 10] : List Nat) = [43, 97, 13, 10] ∧
    ∃ enc, Encodes (.Simple [97]) enc ∧ 4 = 0 + enc.length ∧
      (([43, 97, 13, 10] : List Nat).drop 0).take (4 - 0) = enc :=
  C8_thm_consumed_is_encoding ⟨[43, 97, 13, 10], 0⟩ (.Simple [97]) ⟨[43, 97, 13, 10], 4⟩ rfl

end DiyRedis

namespace DiyRedis

/-- Counterexample to C1 as stated: on a buffer whose first unconsumed byte
is the '*' sigil (42), parse does not return one of the defined result
variants — it hits the todo macro, which aborts the process (the crash
outcome of the model). -/
theorem C1_cex_star_sigil : parse ⟨[42], 0⟩ = .crash := rfl

/-- C1 (amended): for every byte buffer and every starting cursor position,
as long as the first unconsumed byte (if any) is not the '*' sigil, parse
terminates and returns one of the defined result variants, never crashing;
on '*' the source's todo macro aborts instead. -/
theorem C1_thm_total_without_star (c : Cursor)
    (h : c.pos < c.buff.length → c.buff.getD c.pos 0 ≠ 42) :
    (∃ f c', parse c = .ok f c') ∨ (∃ e, parse c = .err e) := by
  unfold parse
  cases hg : get_u8 c with
  | error e =>
    simp only [hg]
    exact Or.inr ⟨e, rfl⟩
  | ok p =>
    obtain ⟨b, c1⟩ := p
    simp only [hg]
    obtain ⟨hlt, hb, hc1⟩ := get_u8_ok_inv c b c1 hg
    have hb42 : ¬ b = 42 := by
      rw [hb]
      exact h hlt
    by_cases h43 : b = 43
    · rw [if_pos h43]
      cases hr : read_line c1 with
      | error e => exact Or.inr ⟨e, rfl⟩
      | ok p2 =>
        obtain ⟨line, c2⟩ := p2
        dsimp only
        by_cases hv : validUtf8 line
        · have hs : Frame.simple line = .ok (.Simple line) := by
            unfold Frame.simple
            rw [if_pos hv]
          rw [hs]
          exact Or.inl ⟨.Simple line, c2, rfl⟩
        · have hs : Frame.simple line = .error (.ProtocolError msgInvalidSimple) := by
            unfold Frame.simple
            rw [if_neg hv]
          rw [hs]
          exact Or.inr ⟨.ProtocolError msgInvalidSimple, rfl⟩
    · rw [if_neg h43]
      by_cases h45 : b = 45
      · rw [if_pos h45]
        cases hr : read_line c1 with
        | error e => exact Or.inr ⟨e, rfl⟩
        | ok p2 =>
          obtain ⟨line, c2⟩ := p2
          dsimp only
          by_cases hv : validUtf8 line
          · have hs : Frame.error line = .ok (.Error line) := by
              unfold Frame.error
              rw [if_pos hv]
            rw [hs]
            exact Or.inl ⟨.Error line, c2, rfl⟩
          · have hs : Frame.error line = .error (.ProtocolError msgInvalidError) := by
              unfold Frame.error
              rw [if_neg hv]
            rw [hs]
            exact Or.inr ⟨.ProtocolError msgInvalidError, rfl⟩
      · rw [if_neg h45]
        by_cases h58 : b = 58
        · rw [if_pos h58]
          cases hr : read_line c1 with
          | error e => exact Or.inr ⟨e, rfl⟩
          | ok p2 =>
            obtain ⟨line, c2⟩ := p2
            dsimp only
            cases hbi : btoi i64Min i64Max line with
            | none =>
              have hs : Frame.integer line = .error (.ProtocolError msgInvalidInteger) := by
                unfold Frame.integer
                rw [hbi]
              rw [hs]
              exact Or.inr ⟨.ProtocolError msgInvalidInteger, rfl⟩
            | some v =>
              have hs : Frame.integer line = .ok (.Integer v) := by
                unfold Frame.integer
                rw [hbi]
              rw [hs]
              exact Or.inl ⟨.Integer v, c2, rfl⟩
        · rw [if_neg h58]
          by_cases h36 : b = 36
          · rw [if_pos h36]
            cases hbk : Frame.bulk c1 with
            | error e => exact Or.inr ⟨e, rfl⟩
            | ok p2 =>
              obtain ⟨f, c2⟩ := p2
              exact Or.inl ⟨f, c2, rfl⟩
          · rw [if_neg h36, if_neg hb42]
            exact Or.inr ⟨.UnsupportedFrameType, rfl⟩

/-- Witness for C1 (amended) at the buffer "+\r\n". -/
theorem C1_witness :
    (∃ f c', parse ⟨[43, 13, 10], 0⟩ = .ok f c') ∨
    (∃ e, parse ⟨[43, 13, 10], 0⟩ = .err e) :=
  C1_thm_total_without_star ⟨[43, 13, 10], 0⟩ (by decide)

/-- C2: the scanner's no-CR classification is inverted relative to the
claim.  On the truncated bulk header "$5" (limit 12 exceeds the buffer
length 2, so more bytes could still bring a CR within the bound) the code
reports ProtocolError; on "$" followed by thirteen non-CR bytes (the
bounded region [1,12) lies entirely inside the buffer and was searched in
full, so the header can never become valid) the code reports Incomplete.
The claim states exactly the opposite classification for both inputs. -/
theorem C2_thm_limit_check_inverted :
    read_line_with_limit ⟨[36, 53], 1⟩ (some 12) =
      .error (.ProtocolError msgCrlfNotFound) ∧
    read_line_with_limit ⟨[36, 65, 65, 65, 65, 65, 65, 65, 65, 65, 65, 65, 65, 65], 1⟩
      (some 12) = .error .Incomplete :=
  ⟨rfl, rfl⟩

/-- C3: "$-1\r\n" is a valid encoded Null frame (parse consumes all five
bytes), yet its proper prefixes "$" and "$-" decode to ProtocolError, not
Incomplete: the inverted limit check of read_line_with_limit misclassifies
every bulk-frame prefix that is shorter than the scan bound. -/
theorem C3_thm_bulk_prefix_not_incomplete :
    parse ⟨[36, 45, 49, 13, 10], 0⟩ = .ok .Null ⟨[36, 45, 49, 13, 10], 5⟩ ∧
    parse ⟨[36], 0⟩ = .err (.ProtocolError msgCrlfNotFound) ∧
    parse ⟨[36, 45], 0⟩ = .err (.ProtocolError msgCrlfNotFound) :=
  ⟨rfl, rfl, rfl⟩

end DiyRedis
